import Mathlib

/-!
Verification of the background-removal / foreground-segmentation engine of
`script.js` (functions `processWatchImage`, `addSample`,
`calculateAverageColor`, `calculateColorVariance`, `improvedWatchMask`,
`floodFillHoles`).

Modelling conventions:
* JS numbers are modelled as exact rationals (`ℚ`); `Math.sqrt` is modelled
  by `Rat.sqrt`, which agrees with the real square root on perfect squares —
  every theorem below that depends on the value of a square root only ever
  evaluates it at a perfect square (`0` or `65536`).
* The RGBA pixel buffer `data` is modelled as a total function `ℤ → ℚ` on
  flat byte indices: index arithmetic in the source is ordinary JS integer
  arithmetic and the border sampler can form out-of-range (negative)
  indices on degenerate images, so indices are integers.  A read outside
  `[0, 4·w·h)` returns whatever the function returns there; no theorem
  depends on such values except through explicit hypotheses.
* Mask arrays of length `w·h` are modelled as total functions `ℕ → ℕ`;
  all reads performed by the source are at indices `< w·h`.
* Imperative loops that fill an array become either a pointwise function
  (when each cell is written independently from loop-invariant inputs) or
  an explicit `List.foldl` of `Function.update` writes (the dilation pass,
  whose traversal-order independence is itself one of the claims), or a
  fuel-indexed small-step loop (the breadth-first flood fill; the fuel is
  proved sufficient below, so the loop always runs to queue exhaustion
  exactly as the JS `while (queue.length > 0)` does).
-/

set_option maxRecDepth 40000

/-- Model of `Math.sqrt` on exact rationals. -/
def jsSqrt (q : ℚ) : ℚ := Rat.sqrt q

/-- `const borderWidth = Math.max(10, Math.floor(Math.min(width, height) * 0.03))`.
Defined by natural division; `borderWidth_eq_floor` below proves it equal to
the literal `max 10 ⌊min w h * 0.03⌋` of the source. -/
def borderWidth (w h : ℕ) : ℕ := max 10 (min w h * 3 / 100)

theorem borderWidth_eq_floor (w h : ℕ) :
    borderWidth w h = max 10 (⌊(min w h : ℚ) * 0.03⌋).toNat := by
  have h1 : ((min w h : ℚ)) * 0.03 = ((min w h * 3 : ℕ) : ℚ) / ((100 : ℕ) : ℚ) := by
    push_cast; ring
  rw [borderWidth, h1, Rat.floor_natCast_div_natCast]
  congr 1

/-- Coordinates `(x, y)` at which `addSample` is called, in call order:
top/bottom border rows first, then left/right border columns.  The bottom
row coordinate is `height - y - 1` and the right column coordinate is
`width - x - 1`, computed in `ℤ` exactly as JS does (they go negative on
degenerate images). -/
def sampleCoords (w h : ℕ) : List (ℤ × ℤ) :=
  ((List.range w).flatMap (fun x =>
    (List.range (borderWidth w h)).flatMap (fun y =>
      [((x : ℤ), (y : ℤ)), ((x : ℤ), (h : ℤ) - y - 1)]))) ++
  ((List.range' (borderWidth w h) (h - 2 * borderWidth w h)).flatMap (fun y =>
    (List.range (borderWidth w h)).flatMap (fun x =>
      [((x : ℤ), (y : ℤ)), ((w : ℤ) - x - 1, (y : ℤ))])))

/-- `addSample(samples, x, y, width, data)`: the `{r, g, b}` triple read at
flat index `(y * width + x) * 4`. -/
def addSample (data : ℤ → ℚ) (w : ℕ) (c : ℤ × ℤ) : ℚ × ℚ × ℚ :=
  ((data ((c.2 * w + c.1) * 4)),
   (data ((c.2 * w + c.1) * 4 + 1)),
   (data ((c.2 * w + c.1) * 4 + 2)))

/-- The sample sequence collected by the border-sampling loops of
`processWatchImage`. -/
def borderSamples (data : ℤ → ℚ) (w h : ℕ) : List (ℚ × ℚ × ℚ) :=
  (sampleCoords w h).map (addSample data w)

/-- `calculateAverageColor(samples)`. -/
def calculateAverageColor (samples : List (ℚ × ℚ × ℚ)) : ℚ × ℚ × ℚ :=
  if samples.length = 0 then (0, 0, 0) else
    ((samples.map (fun s => s.1)).sum / samples.length,
     (samples.map (fun s => s.2.1)).sum / samples.length,
     (samples.map (fun s => s.2.2)).sum / samples.length)

/-- `calculateColorVariance(samples, avg)`. -/
def calculateColorVariance (samples : List (ℚ × ℚ × ℚ)) (avg : ℚ × ℚ × ℚ) : ℚ :=
  if samples.length ≤ 1 then 0 else
    (samples.map (fun s =>
      (s.1 - avg.1) * (s.1 - avg.1) + (s.2.1 - avg.2.1) * (s.2.1 - avg.2.1) +
      (s.2.2 - avg.2.2) * (s.2.2 - avg.2.2))).sum / samples.length

/-- `avgBackground` as computed by `processWatchImage`. -/
def bgAvg (data : ℤ → ℚ) (w h : ℕ) : ℚ × ℚ × ℚ :=
  calculateAverageColor (borderSamples data w h)

/-- `colorVariance` as computed by `processWatchImage`. -/
def bgVariance (data : ℤ → ℚ) (w h : ℕ) : ℚ :=
  calculateColorVariance (borderSamples data w h) (bgAvg data w h)

/-- `adaptiveThreshold = baseThreshold + Math.sqrt(colorVariance) * 0.7` with
`baseThreshold = 32`. -/
def adaptiveThreshold (data : ℤ → ℚ) (w h : ℕ) : ℚ :=
  32 + jsSqrt (bgVariance data w h) * 0.7

/-- `isGoldLike`: `data[idx] > 180 && data[idx+1] > 140 && data[idx] > data[idx+2] + 30`. -/
def isGoldLike (r g b : ℚ) : Prop := r > 180 ∧ g > 140 ∧ r > b + 30

instance (r g b : ℚ) : Decidable (isGoldLike r g b) := by
  unfold isGoldLike; infer_instance

/-- Interior-pixel guard of the per-pixel loops: `1 ≤ x < w-1 ∧ 1 ≤ y < h-1`. -/
def interiorAt (w h x y : ℕ) : Prop := 1 ≤ x ∧ x + 1 < w ∧ 1 ≤ y ∧ y + 1 < h

instance (w h x y : ℕ) : Decidable (interiorAt w h x y) := by
  unfold interiorAt; infer_instance

/-- Weighted color distance of the pixel at `(x, y)` to the background mean
(`colorDist` in `improvedWatchMask`, including the gold-like weight switch). -/
def colorDistAt (data : ℤ → ℚ) (w : ℕ) (avgBg : ℚ × ℚ × ℚ) (x y : ℕ) : ℚ :=
  jsSqrt
    ((data (((y : ℤ) * w + x) * 4) - avgBg.1) * (data (((y : ℤ) * w + x) * 4) - avgBg.1) *
      (if isGoldLike (data (((y : ℤ) * w + x) * 4)) (data (((y : ℤ) * w + x) * 4 + 1))
          (data (((y : ℤ) * w + x) * 4 + 2)) then 0.2 else 0.3) +
     (data (((y : ℤ) * w + x) * 4 + 1) - avgBg.2.1) * (data (((y : ℤ) * w + x) * 4 + 1) - avgBg.2.1) *
      (if isGoldLike (data (((y : ℤ) * w + x) * 4)) (data (((y : ℤ) * w + x) * 4 + 1))
          (data (((y : ℤ) * w + x) * 4 + 2)) then 0.2 else 0.59) +
     (data (((y : ℤ) * w + x) * 4 + 2) - avgBg.2.2) * (data (((y : ℤ) * w + x) * 4 + 2) - avgBg.2.2) *
      (if isGoldLike (data (((y : ℤ) * w + x) * 4)) (data (((y : ℤ) * w + x) * 4 + 1))
          (data (((y : ℤ) * w + x) * 4 + 2)) then 0.6 else 0.11))

/-- Mean intensity `(R + G + B) / 3` of the pixel at integer coordinates `(x, y)`. -/
def intensityAt (data : ℤ → ℚ) (w : ℕ) (x y : ℤ) : ℚ :=
  (data ((y * w + x) * 4) + data ((y * w + x) * 4 + 1) + data ((y * w + x) * 4 + 2)) / 3

/-- `sobelX = [-1, 0, 1, -2, 0, 2, -1, 0, 1]`. -/
def sobelX : List ℚ := [-1, 0, 1, -2, 0, 2, -1, 0, 1]

/-- `sobelY = [-1, -2, -1, 0, 0, 0, 1, 2, 1]`. -/
def sobelY : List ℚ := [-1, -2, -1, 0, 0, 0, 1, 2, 1]

/-- One Sobel gradient component at `(x, y)`: the source's double loop over
`ky, kx ∈ {-1, 0, 1}` accumulating `intensity * kernel[(ky+1)*3 + (kx+1)]`,
re-indexed by `ky+1, kx+1 ∈ {0, 1, 2}`. -/
def gradAt (ker : List ℚ) (data : ℤ → ℚ) (w : ℕ) (x y : ℕ) : ℚ :=
  ((List.range 3).flatMap (fun (ky : ℕ) => (List.range 3).map (fun (kx : ℕ) =>
    intensityAt data w ((x : ℤ) + (kx : ℤ) - 1) ((y : ℤ) + (ky : ℤ) - 1) *
      ker.getD (ky * 3 + kx) 0))).sum

/-- Sobel edge magnitude `Math.sqrt(gradX * gradX + gradY * gradY)` at `(x, y)`. -/
def edgeAt (data : ℤ → ℚ) (w : ℕ) (x y : ℕ) : ℚ :=
  jsSqrt (gradAt sobelX data w x y * gradAt sobelX data w x y +
          gradAt sobelY data w x y * gradAt sobelY data w x y)

/-- `colorDistMap` as a function of the flat pixel index: the first loop of
`improvedWatchMask` writes exactly the interior cells of the zero-initialised
array, each from loop-invariant inputs. -/
def colorDistMap (data : ℤ → ℚ) (w h : ℕ) (avgBg : ℚ × ℚ × ℚ) : ℕ → ℚ := fun i =>
  if interiorAt w h (i % w) (i / w) then colorDistAt data w avgBg (i % w) (i / w) else 0

/-- `edgeMap` as a function of the flat pixel index (same convention as
`colorDistMap`). -/
def edgeMap (data : ℤ → ℚ) (w h : ℕ) : ℕ → ℚ := fun i =>
  if interiorAt w h (i % w) (i / w) then edgeAt data w (i % w) (i / w) else 0

/-- The combination loop of `improvedWatchMask`:
`mask[i] = (colorDistMap[i] + Math.min(255, edgeMap[i]) / 255 * 80) > threshold ? 1 : 0`
for every `i < w*h`. -/
def buildMask (data : ℤ → ℚ) (w h : ℕ) (avgBg : ℚ × ℚ × ℚ) (thr : ℚ) : ℕ → ℕ := fun i =>
  if i < w * h ∧
      colorDistMap data w h avgBg i + min 255 (edgeMap data w h i) / 255 * 80 > thr
  then 1 else 0

/-- Neighbour scan of the dilation pass: some `mask[(y+ky)*w + (x+kx)] === 1`
for `ky, kx ∈ {-1, 0, 1}` (re-indexed by `ky+1, kx+1 ∈ {0, 1, 2}`; the scan
includes the centre cell itself, which is harmless as it is only reached when
`mask[idx] === 0`). -/
def hasFgNbr (mask : ℕ → ℕ) (w : ℕ) (x y : ℕ) : Prop :=
  ∃ ky ∈ List.range 3, ∃ kx ∈ List.range 3, mask ((y + ky - 1) * w + (x + kx - 1)) = 1

instance (mask : ℕ → ℕ) (w x y : ℕ) : Decidable (hasFgNbr mask w x y) := by
  unfold hasFgNbr; infer_instance

/-- Acceptance test of the dilation pass:
`isGoldLike || |r - avgBg.r| > thr/2 || |g - avgBg.g| > thr/2 || |b - avgBg.b| > thr/2`. -/
def dilateCond (data : ℤ → ℚ) (avgBg : ℚ × ℚ × ℚ) (thr : ℚ) (idx : ℕ) : Prop :=
  isGoldLike (data ((idx : ℤ) * 4)) (data ((idx : ℤ) * 4 + 1)) (data ((idx : ℤ) * 4 + 2)) ∨
    |data ((idx : ℤ) * 4) - avgBg.1| > thr / 2 ∨
    |data ((idx : ℤ) * 4 + 1) - avgBg.2.1| > thr / 2 ∨
    |data ((idx : ℤ) * 4 + 2) - avgBg.2.2| > thr / 2

instance (data : ℤ → ℚ) (avgBg : ℚ × ℚ × ℚ) (thr : ℚ) (idx : ℕ) :
    Decidable (dilateCond data avgBg thr idx) := by
  unfold dilateCond; infer_instance

/-- Body of the dilation loop for the pixel `p = (x, y)`: reads only the
pre-pass `mask`, writes only `tempMask[y*w + x]` (here the running `t`). -/
def dilatePixel (data : ℤ → ℚ) (w : ℕ) (avgBg : ℚ × ℚ × ℚ) (thr : ℚ) (mask : ℕ → ℕ)
    (t : ℕ → ℕ) (p : ℕ × ℕ) : ℕ → ℕ :=
  if mask (p.2 * w + p.1) = 0 ∧ hasFgNbr mask w p.1 p.2 ∧
      dilateCond data avgBg thr (p.2 * w + p.1)
  then Function.update t (p.2 * w + p.1) 1 else t

/-- Row-major traversal order of the dilation loop:
`y ∈ [1, h-1)` outer, `x ∈ [1, w-1)` inner. -/
def interiorList (w h : ℕ) : List (ℕ × ℕ) :=
  (List.range' 1 (h - 2)).flatMap (fun y => (List.range' 1 (w - 2)).map (fun x => (x, y)))

/-- The dilation pass of `improvedWatchMask`: `tempMask` starts as a copy of
`mask`, the loop conditionally writes `1`s into it, and the result is copied
back. -/
def dilateMask (data : ℤ → ℚ) (w h : ℕ) (avgBg : ℚ × ℚ × ℚ) (thr : ℚ)
    (mask : ℕ → ℕ) : ℕ → ℕ :=
  (interiorList w h).foldl (dilatePixel data w avgBg thr mask) mask

/-- State of the flood fill: the `visited` and `isBackground` arrays and the
explicit queue. -/
structure FFState where
  visited : ℕ → Bool
  isBackground : ℕ → Bool
  queue : List ℕ

/-- Seed pixels pushed before the fill, in push order: for each `x`, the top
pixel `x` and the bottom pixel `(h-1)*w + x`; then for each `y ∈ [1, h-1)`,
the left pixel `y*w` and the right pixel `y*w + w - 1`. -/
def ffSeeds (w h : ℕ) : List ℕ :=
  ((List.range w).flatMap (fun x => [x, (h - 1) * w + x])) ++
  ((List.range' 1 (h - 2)).flatMap (fun y => [y * w, y * w + (w - 1)]))

/-- Initial flood-fill state: every seed is marked visited and background and
sits in the queue. -/
def ffInit (w h : ℕ) : FFState :=
  { visited := fun i => (ffSeeds w h).contains i,
    isBackground := fun i => (ffSeeds w h).contains i,
    queue := ffSeeds w h }

/-- `directions = [[-1, 0], [1, 0], [0, -1], [0, 1]]`. -/
def ffDirs : List (ℤ × ℤ) := [(-1, 0), (1, 0), (0, -1), (0, 1)]

/-- Processing of one direction `d` from the dequeued pixel `(x, y)`:
bounds-check the neighbour, and if it is unvisited background, mark it and
enqueue it. -/
def ffVisit (mask : ℕ → ℕ) (w h : ℕ) (x y : ℕ) (s : FFState) (d : ℤ × ℤ) : FFState :=
  if 0 ≤ (x : ℤ) + d.1 ∧ (x : ℤ) + d.1 < w ∧ 0 ≤ (y : ℤ) + d.2 ∧ (y : ℤ) + d.2 < h then
    if s.visited ((((y : ℤ) + d.2) * w + ((x : ℤ) + d.1)).toNat) = false ∧
        mask ((((y : ℤ) + d.2) * w + ((x : ℤ) + d.1)).toNat) = 0 then
      { visited := Function.update s.visited ((((y : ℤ) + d.2) * w + ((x : ℤ) + d.1)).toNat) true,
        isBackground :=
          Function.update s.isBackground ((((y : ℤ) + d.2) * w + ((x : ℤ) + d.1)).toNat) true,
        queue := s.queue ++ [(((y : ℤ) + d.2) * w + ((x : ℤ) + d.1)).toNat] }
    else s
  else s

/-- One iteration of `while (queue.length > 0)`: dequeue `pixel`, set
`x = pixel % width`, `y = floor(pixel / width)`, and process the four
directions in order. -/
def ffStep (mask : ℕ → ℕ) (w h : ℕ) (s : FFState) : FFState :=
  match s.queue with
  | [] => s
  | p :: rest => ffDirs.foldl (ffVisit mask w h (p % w) (p / w)) { s with queue := rest }

/-- Fuel-indexed iteration of `ffStep`; stops early when the queue is empty. -/
def ffRun (mask : ℕ → ℕ) (w h : ℕ) : ℕ → FFState → FFState
  | 0, s => s
  | fuel + 1, s =>
    match s.queue with
    | [] => s
    | _ :: _ => ffRun mask w h fuel (ffStep mask w h s)

/-- Fuel that provably exhausts the queue (`ffRun_queue_eq_nil` below): one
step per initial seed plus one per pixel ever newly visited. -/
def ffFuel (w h : ℕ) : ℕ := (ffSeeds w h).length + w * h

/-- Final flood-fill state. -/
def ffFinal (mask : ℕ → ℕ) (w h : ℕ) : FFState :=
  ffRun mask w h (ffFuel w h) (ffInit w h)

/-- `floodFillHoles(mask, width, height)`: run the fill, then relabel every
in-range pixel with `mask[i] === 0 && !isBackground[i]` as foreground. -/
def floodFillHoles (mask : ℕ → ℕ) (w h : ℕ) : ℕ → ℕ := fun i =>
  if i < w * h ∧ mask i = 0 ∧ (ffFinal mask w h).isBackground i = false then 1 else mask i

/-- `q` is the in-bounds 4-neighbour of `p` in direction `d ∈ ffDirs`, with
`p` decomposed exactly as the source does (`x = p % w`, `y = p / w`). -/
def ffAdj (w h : ℕ) (p q : ℕ) : Prop :=
  ∃ d ∈ ffDirs,
    0 ≤ (p % w : ℕ) + d.1 ∧ ((p % w : ℕ) : ℤ) + d.1 < w ∧
    0 ≤ ((p / w : ℕ) : ℤ) + d.2 ∧ ((p / w : ℕ) : ℤ) + d.2 < h ∧
    q = ((((p / w : ℕ) : ℤ) + d.2) * w + (((p % w : ℕ) : ℤ) + d.1)).toNat

/-- Pixels the fill of `floodFillHoles` can reach: every seed (border pixel,
regardless of its label), closed under stepping to an in-bounds 4-neighbour
labelled background. -/
inductive ffReach (mask : ℕ → ℕ) (w h : ℕ) : ℕ → Prop
  | seed (p : ℕ) : p ∈ ffSeeds w h → ffReach mask w h p
  | step (p q : ℕ) : ffReach mask w h p → ffAdj w h p q → mask q = 0 → ffReach mask w h q

/-- Modelled from the spec (§4.6 wording of the Hole Filler contract, as used
by claim C1): reachability when the flood fill is seeded only at border
pixels *labelled background*, stepping through background-labelled pixels.
This is the spec-side notion to compare against `ffReach` / `floodFillHoles`. -/
inductive ffReachSpec (mask : ℕ → ℕ) (w h : ℕ) : ℕ → Prop
  | seed (p : ℕ) : p ∈ ffSeeds w h → mask p = 0 → ffReachSpec mask w h p
  | step (p q : ℕ) : ffReachSpec mask w h p → ffAdj w h p q → mask q = 0 → ffReachSpec mask w h q

/-- `improvedWatchMask(data, width, height, mask, avgBg, threshold)`: build
the combined color+edge mask, dilate it once, then fill holes; returns the
final content of `mask`. -/
def improvedWatchMask (data : ℤ → ℚ) (w h : ℕ) (avgBg : ℚ × ℚ × ℚ) (thr : ℚ) : ℕ → ℕ :=
  floodFillHoles (dilateMask data w h avgBg thr (buildMask data w h avgBg thr)) w h

/-- The final compositing loop of `processWatchImage`:
`for (i = 0; i < data.length; i += 4) if (mask[i/4] === 0) data[i+3] = 0`,
acting on the byte buffer of length `4*w*h`. -/
def applyMask (data : ℤ → ℚ) (w h : ℕ) (mask : ℕ → ℕ) : ℤ → ℚ := fun j =>
  if 0 ≤ j ∧ j < 4 * (w : ℤ) * h ∧ j % 4 = 3 ∧ mask ((j / 4).toNat) = 0 then 0 else data j

/-- `processWatchImage`, restricted to its numeric core: sample the border,
compute the background statistics and adaptive threshold, build the mask via
`improvedWatchMask`, and write it into the alpha channel.  Returns the
mutated buffer and the final mask. -/
def processWatchImage (data : ℤ → ℚ) (w h : ℕ) : (ℤ → ℚ) × (ℕ → ℕ) :=
  (applyMask data w h
      (improvedWatchMask data w h (bgAvg data w h) (adaptiveThreshold data w h)),
   improvedWatchMask data w h (bgAvg data w h) (adaptiveThreshold data w h))

/-! ## Index arithmetic -/

theorem idx_mod (w x y : ℕ) (hx : x < w) : (y * w + x) % w = x := by
  rw [Nat.mul_comm, Nat.mul_add_mod, Nat.mod_eq_of_lt hx]

theorem idx_div (w x y : ℕ) (hx : x < w) : (y * w + x) / w = y := by
  rw [Nat.mul_comm, Nat.mul_add_div (by omega : 0 < w), Nat.div_eq_of_lt hx, Nat.add_zero]

theorem idx_lt (w h x y : ℕ) (hx : x < w) (hy : y < h) : y * w + x < w * h := by
  calc y * w + x < y * w + w := by omega
    _ = (y + 1) * w := by ring
    _ ≤ h * w := Nat.mul_le_mul_right w (by omega)
    _ = w * h := Nat.mul_comm h w

/-! ## The dilation pass -/

theorem mem_interiorList (w h : ℕ) (p : ℕ × ℕ) :
    p ∈ interiorList w h ↔ interiorAt w h p.1 p.2 := by
  obtain ⟨x, y⟩ := p
  simp only [interiorList, interiorAt, List.mem_flatMap, List.mem_map, List.mem_range'_1,
    Prod.mk.injEq]
  constructor
  · rintro ⟨y', hy', x', hx', rfl, rfl⟩
    omega
  · rintro ⟨h1, h2, h3, h4⟩
    exact ⟨y, by omega, x, by omega, rfl, rfl⟩

theorem dilate_foldl_apply (data : ℤ → ℚ) (w : ℕ) (avgBg : ℚ × ℚ × ℚ) (thr : ℚ)
    (mask : ℕ → ℕ) (l : List (ℕ × ℕ)) (t : ℕ → ℕ) (j : ℕ) :
    (l.foldl (dilatePixel data w avgBg thr mask) t) j =
      if ∃ p ∈ l, p.2 * w + p.1 = j ∧ mask (p.2 * w + p.1) = 0 ∧
          hasFgNbr mask w p.1 p.2 ∧ dilateCond data avgBg thr (p.2 * w + p.1)
      then 1 else t j := by
  induction l generalizing t with
  | nil => simp
  | cons a l ih =>
    rw [List.foldl_cons, ih]
    by_cases hrest : ∃ p ∈ l, p.2 * w + p.1 = j ∧ mask (p.2 * w + p.1) = 0 ∧
        hasFgNbr mask w p.1 p.2 ∧ dilateCond data avgBg thr (p.2 * w + p.1)
    · obtain ⟨p, hp, hprop⟩ := hrest
      rw [if_pos ⟨p, hp, hprop⟩, if_pos ⟨p, List.mem_cons_of_mem a hp, hprop⟩]
    · rw [if_neg hrest]
      by_cases hcond : a.2 * w + a.1 = j ∧ mask (a.2 * w + a.1) = 0 ∧
          hasFgNbr mask w a.1 a.2 ∧ dilateCond data avgBg thr (a.2 * w + a.1)
      · rw [if_pos ⟨a, List.mem_cons_self a l, hcond⟩, dilatePixel,
          if_pos ⟨hcond.2.1, hcond.2.2⟩, hcond.1, Function.update_same]
      · have hnone : ¬ ∃ p ∈ a :: l, p.2 * w + p.1 = j ∧ mask (p.2 * w + p.1) = 0 ∧
            hasFgNbr mask w p.1 p.2 ∧ dilateCond data avgBg thr (p.2 * w + p.1) := by
          rintro ⟨p, hp, hprop⟩
          rcases List.mem_cons.mp hp with rfl | hp'
          · exact hcond hprop
          · exact hrest ⟨p, hp', hprop⟩
        rw [if_neg hnone, dilatePixel]
        by_cases hc : mask (a.2 * w + a.1) = 0 ∧ hasFgNbr mask w a.1 a.2 ∧
            dilateCond data avgBg thr (a.2 * w + a.1)
        · rw [if_pos hc, Function.update_apply, if_neg (fun hj => hcond ⟨hj.symm, hc⟩)]
        · rw [if_neg hc]

theorem dilate_foldl_keeps_one (data : ℤ → ℚ) (w : ℕ) (avgBg : ℚ × ℚ × ℚ) (thr : ℚ)
    (mask : ℕ → ℕ) (l : List (ℕ × ℕ)) (t : ℕ → ℕ) (j : ℕ) (hj : t j = 1) :
    (l.foldl (dilatePixel data w avgBg thr mask) t) j = 1 := by
  rw [dilate_foldl_apply]
  split
  · rfl
  · exact hj

theorem idx_inj (w x x' y y' : ℕ) (hx : x < w) (hx' : x' < w)
    (he : y * w + x = y' * w + x') : x = x' ∧ y = y' := by
  have h1 : (y * w + x) % w = x := idx_mod w x y hx
  have h2 : (y' * w + x') % w = x' := idx_mod w x' y' hx'
  have h3 : (y * w + x) / w = y := idx_div w x y hx
  have h4 : (y' * w + x') / w = y' := idx_div w x' y' hx'
  rw [he] at h1 h3
  exact ⟨h1.symm.trans h2, h3.symm.trans h4⟩

theorem hasFgNbr_iff_nbr8 (mask : ℕ → ℕ) (w x y : ℕ) (h0 : mask (y * w + x) = 0) :
    hasFgNbr mask w x y ↔
      ∃ ky ∈ List.range 3, ∃ kx ∈ List.range 3, ¬(ky = 1 ∧ kx = 1) ∧
        mask ((y + ky - 1) * w + (x + kx - 1)) = 1 := by
  constructor
  · rintro ⟨ky, hky, kx, hkx, hm⟩
    by_cases hc : ky = 1 ∧ kx = 1
    · rw [hc.1, hc.2] at hm
      simp only [Nat.add_sub_cancel] at hm
      rw [h0] at hm
      exact absurd hm Nat.zero_ne_one
    · exact ⟨ky, hky, kx, hkx, hc, hm⟩
  · rintro ⟨ky, hky, kx, hkx, _, hm⟩
    exact ⟨ky, hky, kx, hkx, hm⟩

/-- C6: the dilation pass of the Mask Refiner never demotes a foreground
pixel: every pixel labelled `1` before the pass is still labelled `1` after
it, so the foreground set only grows. -/
theorem dilate_monotone (data : ℤ → ℚ) (w h : ℕ) (avgBg : ℚ × ℚ × ℚ) (thr : ℚ)
    (mask : ℕ → ℕ) (i : ℕ) (hi : mask i = 1) :
    dilateMask data w h avgBg thr mask i = 1 :=
  dilate_foldl_keeps_one data w avgBg thr mask (interiorList w h) mask i hi

theorem dilate_monotone_witness :
    (fun _ : ℕ => 1) 0 = 1 ∧
      dilateMask (fun _ => 0) 3 3 (0, 0, 0) 0 (fun _ => 1) 0 = 1 :=
  ⟨rfl, dilate_monotone (fun _ => 0) 3 3 (0, 0, 0) 0 (fun _ => 1) 0 rfl⟩

/-- C4: the Mask Refiner has snapshot-then-write semantics: folding its loop
body over any traversal order of the interior pixels produces the same
result, and that result labels a pixel `1` exactly when its pre-pass label
was `1`, or it is an interior pixel labelled `0` with at least one
8-neighbour labelled `1` that passes the gold-like / channel-difference
acceptance test (`dilateCond`). -/
theorem dilate_semantics (data : ℤ → ℚ) (w h : ℕ) (avgBg : ℚ × ℚ × ℚ) (thr : ℚ)
    (mask : ℕ → ℕ) (l : List (ℕ × ℕ)) (hl : l.Perm (interiorList w h))
    (x y : ℕ) (hx : x < w) (hy : y < h) :
    (l.foldl (dilatePixel data w avgBg thr mask) mask) (y * w + x) =
      dilateMask data w h avgBg thr mask (y * w + x) ∧
    (dilateMask data w h avgBg thr mask (y * w + x) = 1 ↔
      (mask (y * w + x) = 1 ∨
        (interiorAt w h x y ∧ mask (y * w + x) = 0 ∧
          (∃ ky ∈ List.range 3, ∃ kx ∈ List.range 3, ¬(ky = 1 ∧ kx = 1) ∧
            mask ((y + ky - 1) * w + (x + kx - 1)) = 1) ∧
          dilateCond data avgBg thr (y * w + x)))) := by
  constructor
  · rw [dilateMask, dilate_foldl_apply, dilate_foldl_apply]
    exact if_congr (by
      constructor
      · rintro ⟨p, hp, hprop⟩; exact ⟨p, hl.mem_iff.mp hp, hprop⟩
      · rintro ⟨p, hp, hprop⟩; exact ⟨p, hl.mem_iff.mpr hp, hprop⟩) rfl rfl
  · rw [dilateMask, dilate_foldl_apply]
    by_cases hc : ∃ p ∈ interiorList w h, p.2 * w + p.1 = y * w + x ∧
        mask (p.2 * w + p.1) = 0 ∧ hasFgNbr mask w p.1 p.2 ∧
        dilateCond data avgBg thr (p.2 * w + p.1)
    · rw [if_pos hc]
      obtain ⟨p, hp, hj, h0, hnbr, hcond⟩ := hc
      have hint : interiorAt w h p.1 p.2 := (mem_interiorList w h p).mp hp
      have hint2 := hint
      simp only [interiorAt] at hint2
      obtain ⟨hpx, hpy⟩ := idx_inj w p.1 x p.2 y (by omega) hx hj
      rw [hpx, hpy] at hint h0 hnbr hcond
      exact ⟨fun _ => Or.inr ⟨hint, h0,
        (hasFgNbr_iff_nbr8 mask w x y h0).mp hnbr, hcond⟩, fun _ => rfl⟩
    · rw [if_neg hc]
      constructor
      · exact fun hm => Or.inl hm
      · rintro (hm | ⟨hint, h0, hnbr8, hcond⟩)
        · exact hm
        · exact absurd ⟨(x, y), (mem_interiorList w h (x, y)).mpr hint, rfl, h0,
            (hasFgNbr_iff_nbr8 mask w x y h0).mpr hnbr8, hcond⟩ hc

theorem dilate_semantics_witness :
    ((interiorList 3 3).reverse.foldl
        (dilatePixel (fun _ => 0) 3 (0, 0, 0) 0 (fun _ => 0)) (fun _ => 0)) (1 * 3 + 1) =
      dilateMask (fun _ => 0) 3 3 (0, 0, 0) 0 (fun _ => 0) (1 * 3 + 1) :=
  (dilate_semantics (fun _ => 0) 3 3 (0, 0, 0) 0 (fun _ => 0)
    (interiorList 3 3).reverse (List.reverse_perm _) 1 1 (by decide) (by decide)).1

/-! ## The alpha compositor -/

/-- C10: the final compositing loop writes `0` into the alpha byte of exactly
the pixels whose final mask label is `0`, leaves the R, G, B bytes of every
pixel unchanged, and leaves the alpha byte of every foreground-labelled
pixel unchanged. -/
theorem applyMask_frame (data : ℤ → ℚ) (w h : ℕ) (j : ℤ)
    (hj0 : 0 ≤ j) (hj4 : j < 4 * (w : ℤ) * h) :
    (j % 4 ≠ 3 → (processWatchImage data w h).1 j = data j) ∧
    (j % 4 = 3 → (processWatchImage data w h).2 ((j / 4).toNat) = 0 →
      (processWatchImage data w h).1 j = 0) ∧
    (j % 4 = 3 → (processWatchImage data w h).2 ((j / 4).toNat) ≠ 0 →
      (processWatchImage data w h).1 j = data j) := by
  refine ⟨fun hmod => ?_, fun hmod hmask => ?_, fun hmod hmask => ?_⟩
  · exact if_neg (fun hcond => hmod hcond.2.2.1)
  · exact if_pos ⟨hj0, hj4, hmod, hmask⟩
  · exact if_neg (fun hcond => hmask hcond.2.2.2)

theorem applyMask_frame_witness :
    (0 : ℤ) ≤ 2 ∧ (2 : ℤ) < 4 * (1 : ℕ) * (1 : ℕ) ∧
      ((2 : ℤ) % 4 ≠ 3 → (processWatchImage (fun _ => 128) 1 1).1 2 = (fun _ : ℤ => (128 : ℚ)) 2) :=
  ⟨by decide, by decide,
    (applyMask_frame (fun _ => 128) 1 1 2 (by decide) (by decide)).1⟩

/-! ## The border sampler -/

theorem mem_sampleCoords (w h : ℕ) (c : ℤ × ℤ) :
    c ∈ sampleCoords w h ↔
      ((∃ x < w, ∃ y < borderWidth w h,
          (c = ((x : ℤ), (y : ℤ)) ∨ c = ((x : ℤ), (h : ℤ) - y - 1))) ∨
       (∃ y, borderWidth w h ≤ y ∧ y < h - borderWidth w h ∧
          ∃ x < borderWidth w h,
          (c = ((x : ℤ), (y : ℤ)) ∨ c = ((w : ℤ) - x - 1, (y : ℤ))))) := by
  simp only [sampleCoords, List.mem_append, List.mem_flatMap, List.mem_range,
    List.mem_range'_1, List.mem_cons, List.mem_singleton, List.not_mem_nil, or_false]
  constructor
  · rintro (⟨x, hx, y, hy, hc⟩ | ⟨y, hy, x, hx, hc⟩)
    · exact Or.inl ⟨x, hx, y, hy, hc⟩
    · exact Or.inr ⟨y, hy.1, by omega, x, hx, hc⟩
  · rintro (⟨x, hx, y, hy, hc⟩ | ⟨y, hy1, hy2, x, hx, hc⟩)
    · exact Or.inl ⟨x, hx, y, hy, hc⟩
    · exact Or.inr ⟨y, ⟨hy1, by omega⟩, x, hx, hc⟩

/-- C9 (amended): when the border band fits the image — `b ≤ h`, and
`b ≤ w` whenever the left/right loop is non-empty (`h > 2b`) — every
coordinate the Border Sampler reads is in bounds.  On images smaller than
the band (e.g. `1 × 1`, where `b = 10`), the sampler does read out-of-range
coordinates; see `sampleCoords_oob`. -/
theorem sampleCoords_inbounds (w h : ℕ) (hbh : borderWidth w h ≤ h)
    (hcond : borderWidth w h ≤ w ∨ h ≤ 2 * borderWidth w h) :
    ∀ c ∈ sampleCoords w h, 0 ≤ c.1 ∧ c.1 < w ∧ 0 ≤ c.2 ∧ c.2 < h := by
  intro c hc
  rcases (mem_sampleCoords w h c).mp hc with
    ⟨x, hx, y, hy, (rfl | rfl)⟩ | ⟨y, hy1, hy2, x, hx, (rfl | rfl)⟩ <;>
    simp only [] <;> constructor <;> try constructor
  all_goals omega

/-- C9 counterexample: on a `1 × 1` image (`b = 10`) the very second sample
is taken at `(0, 1)`, which lies outside the pixel grid, refuting in-bounds
sampling for every image with `width, height ≥ 1`. -/
theorem sampleCoords_oob :
    ∃ c ∈ sampleCoords 1 1, ¬(0 ≤ c.1 ∧ c.1 < 1 ∧ 0 ≤ c.2 ∧ c.2 < 1) := by
  decide

theorem sampleCoords_inbounds_witness :
    borderWidth 10 10 ≤ 10 ∧
      ∀ c ∈ sampleCoords 10 10, 0 ≤ c.1 ∧ c.1 < 10 ∧ 0 ≤ c.2 ∧ c.2 < 10 :=
  ⟨by decide, sampleCoords_inbounds 10 10 (by decide) (Or.inl (by decide))⟩

/-! ## The mask builder -/

/-- C3: for every interior pixel, the Mask Builder labels it foreground iff
the combined metric — weighted color distance plus
`min(255, edgeMagnitude)/255 * 80` — strictly exceeds the adaptive threshold
`32 + sqrt(variance) * 0.7` computed by `processWatchImage`. -/
theorem buildMask_rule (data : ℤ → ℚ) (w h x y : ℕ)
    (hx1 : 1 ≤ x) (hx2 : x + 1 < w) (hy1 : 1 ≤ y) (hy2 : y + 1 < h) :
    buildMask data w h (bgAvg data w h) (adaptiveThreshold data w h) (y * w + x) = 1 ↔
      colorDistAt data w (bgAvg data w h) x y + min 255 (edgeAt data w x y) / 255 * 80 >
        32 + jsSqrt (bgVariance data w h) * 0.7 := by
  have hxw : x < w := by omega
  have hlt : y * w + x < w * h := idx_lt w h x y hxw (by omega)
  have hmod := idx_mod w x y hxw
  have hdiv := idx_div w x y hxw
  have hint : interiorAt w h ((y * w + x) % w) ((y * w + x) / w) := by
    rw [hmod, hdiv]; exact ⟨hx1, hx2, hy1, hy2⟩
  have hint2 : interiorAt w h x y := ⟨hx1, hx2, hy1, hy2⟩
  rw [buildMask, colorDistMap, edgeMap, if_pos hint, hmod, hdiv, if_pos hint2,
    adaptiveThreshold]
  constructor
  · intro hone
    by_contra hneg
    rw [if_neg (fun hcontra => hneg hcontra.2)] at hone
    exact Nat.zero_ne_one hone
  · intro hgt
    rw [if_pos ⟨hlt, hgt⟩]

theorem buildMask_rule_witness :
    1 ≤ 1 ∧ 1 + 1 < 3 ∧
      (buildMask (fun _ => 0) 3 3 (bgAvg (fun _ => 0) 3 3)
          (adaptiveThreshold (fun _ => 0) 3 3) (1 * 3 + 1) = 1 ↔
        colorDistAt (fun _ => 0) 3 (bgAvg (fun _ => 0) 3 3) 1 1 +
            min 255 (edgeAt (fun _ => 0) 3 1 1) / 255 * 80 >
          32 + jsSqrt (bgVariance (fun _ => 0) 3 3) * 0.7) :=
  ⟨le_refl 1, by decide,
    buildMask_rule (fun _ => 0) 3 3 1 1 (le_refl 1) (by decide) (le_refl 1) (by decide)⟩

/-! ## The flood fill: single-visit lemmas -/

theorem ffVisit_visited_mono (mask : ℕ → ℕ) (w h x y : ℕ) (s : FFState) (d : ℤ × ℤ)
    (i : ℕ) (hi : s.visited i = true) : (ffVisit mask w h x y s d).visited i = true := by
  unfold ffVisit
  split
  · split
    · simp only [Function.update_apply]
      split
      · rfl
      · exact hi
    · exact hi
  · exact hi

theorem ffVisit_bg_mono (mask : ℕ → ℕ) (w h x y : ℕ) (s : FFState) (d : ℤ × ℤ)
    (i : ℕ) (hi : s.isBackground i = true) : (ffVisit mask w h x y s d).isBackground i = true := by
  unfold ffVisit
  split
  · split
    · simp only [Function.update_apply]
      split
      · rfl
      · exact hi
    · exact hi
  · exact hi

theorem ffVisit_vis_eq_bg (mask : ℕ → ℕ) (w h x y : ℕ) (s : FFState) (d : ℤ × ℤ)
    (hs : ∀ i, s.visited i = s.isBackground i) :
    ∀ i, (ffVisit mask w h x y s d).visited i = (ffVisit mask w h x y s d).isBackground i := by
  intro i
  unfold ffVisit
  split
  · split
    · simp only [Function.update_apply]
      split
      · rfl
      · exact hs i
    · exact hs i
  · exact hs i

theorem ffVisit_queue_mono (mask : ℕ → ℕ) (w h x y : ℕ) (s : FFState) (d : ℤ × ℤ)
    (q : ℕ) (hq : q ∈ s.queue) : q ∈ (ffVisit mask w h x y s d).queue := by
  unfold ffVisit
  split
  · split
    · exact List.mem_append_left _ hq
    · exact hq
  · exact hq

theorem ffVisit_new_queued (mask : ℕ → ℕ) (w h x y : ℕ) (s : FFState) (d : ℤ × ℤ)
    (i : ℕ) (hi : (ffVisit mask w h x y s d).visited i = true) :
    s.visited i = true ∨ i ∈ (ffVisit mask w h x y s d).queue := by
  revert hi
  unfold ffVisit
  split
  · split
    · simp only [Function.update_apply]
      split
      · rename_i heq
        exact fun _ => Or.inr (by rw [heq]; exact List.mem_append_right _ (List.mem_singleton.mpr rfl))
      · exact fun hv => Or.inl hv
    · exact fun hv => Or.inl hv
  · exact fun hv => Or.inl hv

theorem ffVisit_queue_visited (mask : ℕ → ℕ) (w h x y : ℕ) (s : FFState) (d : ℤ × ℤ)
    (hs : ∀ q ∈ s.queue, s.visited q = true) :
    ∀ q ∈ (ffVisit mask w h x y s d).queue, (ffVisit mask w h x y s d).visited q = true := by
  intro q hq
  revert hq
  unfold ffVisit
  split
  · split
    · intro hq
      rcases List.mem_append.mp hq with hq' | hq'
      · simp only [Function.update_apply]
        split
        · rfl
        · exact hs q hq'
      · rw [List.mem_singleton.mp hq']
        simp only [Function.update_same]
    · exact hs q
  · exact hs q

theorem ffVisit_marks (mask : ℕ → ℕ) (w h x y : ℕ) (s : FFState) (d : ℤ × ℤ)
    (h1 : 0 ≤ (x : ℤ) + d.1 ∧ (x : ℤ) + d.1 < w ∧ 0 ≤ (y : ℤ) + d.2 ∧ (y : ℤ) + d.2 < h)
    (h0 : mask ((((y : ℤ) + d.2) * w + ((x : ℤ) + d.1)).toNat) = 0) :
    (ffVisit mask w h x y s d).visited ((((y : ℤ) + d.2) * w + ((x : ℤ) + d.1)).toNat) = true := by
  unfold ffVisit
  rw [if_pos h1]
  by_cases h2 : s.visited ((((y : ℤ) + d.2) * w + ((x : ℤ) + d.1)).toNat) = false ∧
      mask ((((y : ℤ) + d.2) * w + ((x : ℤ) + d.1)).toNat) = 0
  · rw [if_pos h2]
    simp only [Function.update_same]
  · rw [if_neg h2]
    cases hv : s.visited ((((y : ℤ) + d.2) * w + ((x : ℤ) + d.1)).toNat) with
    | false => exact absurd ⟨hv, h0⟩ h2
    | true => rfl

theorem ffVisit_sound (mask : ℕ → ℕ) (w h p : ℕ) (d : ℤ × ℤ) (hd : d ∈ ffDirs) (s : FFState)
    (hreach : ffReach mask w h p)
    (hs : ∀ i, s.visited i = true → ffReach mask w h i) :
    ∀ i, (ffVisit mask w h (p % w) (p / w) s d).visited i = true → ffReach mask w h i := by
  intro i
  unfold ffVisit
  split
  · rename_i h1
    split
    · rename_i h2
      simp only [Function.update_apply]
      split
      · rename_i heq
        intro _
        rw [heq]
        exact ffReach.step p _ hreach ⟨d, hd, h1.1, h1.2.1, h1.2.2.1, h1.2.2.2, rfl⟩ h2.2
      · exact hs i
    · exact hs i
  · exact hs i

/-! ## The flood fill: direction-fold lemmas -/

theorem ffFold_visited_mono (mask : ℕ → ℕ) (w h x y : ℕ) (l : List (ℤ × ℤ)) :
    ∀ (s : FFState) (i : ℕ), s.visited i = true →
      (l.foldl (ffVisit mask w h x y) s).visited i = true := by
  induction l with
  | nil => exact fun s i hi => hi
  | cons d l ih =>
    intro s i hi
    rw [List.foldl_cons]
    exact ih _ i (ffVisit_visited_mono mask w h x y s d i hi)

theorem ffFold_bg_mono (mask : ℕ → ℕ) (w h x y : ℕ) (l : List (ℤ × ℤ)) :
    ∀ (s : FFState) (i : ℕ), s.isBackground i = true →
      (l.foldl (ffVisit mask w h x y) s).isBackground i = true := by
  induction l with
  | nil => exact fun s i hi => hi
  | cons d l ih =>
    intro s i hi
    rw [List.foldl_cons]
    exact ih _ i (ffVisit_bg_mono mask w h x y s d i hi)

theorem ffFold_vis_eq_bg (mask : ℕ → ℕ) (w h x y : ℕ) (l : List (ℤ × ℤ)) :
    ∀ (s : FFState), (∀ i, s.visited i = s.isBackground i) →
      ∀ i, (l.foldl (ffVisit mask w h x y) s).visited i =
        (l.foldl (ffVisit mask w h x y) s).isBackground i := by
  induction l with
  | nil => exact fun s hs => hs
  | cons d l ih =>
    intro s hs
    rw [List.foldl_cons]
    exact ih _ (ffVisit_vis_eq_bg mask w h x y s d hs)

theorem ffFold_queue_mono (mask : ℕ → ℕ) (w h x y : ℕ) (l : List (ℤ × ℤ)) :
    ∀ (s : FFState) (q : ℕ), q ∈ s.queue →
      q ∈ (l.foldl (ffVisit mask w h x y) s).queue := by
  induction l with
  | nil => exact fun s q hq => hq
  | cons d l ih =>
    intro s q hq
    rw [List.foldl_cons]
    exact ih _ q (ffVisit_queue_mono mask w h x y s d q hq)

theorem ffFold_new_queued (mask : ℕ → ℕ) (w h x y : ℕ) (l : List (ℤ × ℤ)) :
    ∀ (s : FFState) (i : ℕ), (l.foldl (ffVisit mask w h x y) s).visited i = true →
      s.visited i = true ∨ i ∈ (l.foldl (ffVisit mask w h x y) s).queue := by
  induction l with
  | nil => exact fun s i hi => Or.inl hi
  | cons d l ih =>
    intro s i hi
    rw [List.foldl_cons] at hi ⊢
    rcases ih _ i hi with hv | hq
    · rcases ffVisit_new_queued mask w h x y s d i hv with hv' | hq'
      · exact Or.inl hv'
      · exact Or.inr (ffFold_queue_mono mask w h x y l _ i hq')
    · exact Or.inr hq

theorem ffFold_queue_visited (mask : ℕ → ℕ) (w h x y : ℕ) (l : List (ℤ × ℤ)) :
    ∀ (s : FFState), (∀ q ∈ s.queue, s.visited q = true) →
      ∀ q ∈ (l.foldl (ffVisit mask w h x y) s).queue,
        (l.foldl (ffVisit mask w h x y) s).visited q = true := by
  induction l with
  | nil => exact fun s hs => hs
  | cons d l ih =>
    intro s hs
    rw [List.foldl_cons]
    exact ih _ (ffVisit_queue_visited mask w h x y s d hs)

theorem ffFold_marks (mask : ℕ → ℕ) (w h x y : ℕ) (l : List (ℤ × ℤ)) :
    ∀ (s : FFState) (d : ℤ × ℤ), d ∈ l →
      (0 ≤ (x : ℤ) + d.1 ∧ (x : ℤ) + d.1 < w ∧ 0 ≤ (y : ℤ) + d.2 ∧ (y : ℤ) + d.2 < h) →
      mask ((((y : ℤ) + d.2) * w + ((x : ℤ) + d.1)).toNat) = 0 →
      (l.foldl (ffVisit mask w h x y) s).visited
        ((((y : ℤ) + d.2) * w + ((x : ℤ) + d.1)).toNat) = true := by
  induction l with
  | nil => intro s d hd; exact absurd hd (List.not_mem_nil d)
  | cons e l ih =>
    intro s d hd h1 h0
    rw [List.foldl_cons]
    rcases List.mem_cons.mp hd with rfl | hd'
    · exact ffFold_visited_mono mask w h x y l _ _ (ffVisit_marks mask w h x y s d h1 h0)
    · exact ih _ d hd' h1 h0

theorem ffFold_sound (mask : ℕ → ℕ) (w h p : ℕ) (l : List (ℤ × ℤ)) (hl : ∀ d ∈ l, d ∈ ffDirs) :
    ∀ (s : FFState), ffReach mask w h p →
      (∀ i, s.visited i = true → ffReach mask w h i) →
      ∀ i, (l.foldl (ffVisit mask w h (p % w) (p / w)) s).visited i = true →
        ffReach mask w h i := by
  induction l with
  | nil => exact fun s _ hs => hs
  | cons d l ih =>
    intro s hreach hs i hi
    rw [List.foldl_cons] at hi
    exact ih (fun e he => hl e (List.mem_cons_of_mem d he)) _ hreach
      (ffVisit_sound mask w h p d (hl d (List.mem_cons_self d l)) s hreach hs) i hi

/-! ## The flood fill: invariant -/

/-- Breadth-first-search invariant: `visited` and `isBackground` coincide,
every visited pixel is reachable, queued pixels are visited, and every
visited pixel is either still queued or already fully expanded. -/
def ffInv (mask : ℕ → ℕ) (w h : ℕ) (s : FFState) : Prop :=
  (∀ i, s.visited i = s.isBackground i) ∧
  (∀ i, s.visited i = true → ffReach mask w h i) ∧
  (∀ q ∈ s.queue, s.visited q = true) ∧
  (∀ p, s.visited p = true →
    p ∈ s.queue ∨ ∀ q, ffAdj w h p q → mask q = 0 → s.visited q = true)

theorem seeds_contains_iff (w h i : ℕ) :
    (ffSeeds w h).contains i = true ↔ i ∈ ffSeeds w h := by
  simp [List.elem_iff]

theorem ffInit_inv (mask : ℕ → ℕ) (w h : ℕ) : ffInv mask w h (ffInit w h) := by
  refine ⟨fun i => rfl, fun i hi => ?_, fun q hq => ?_, fun p hp => ?_⟩
  · exact ffReach.seed i ((seeds_contains_iff w h i).mp hi)
  · exact (seeds_contains_iff w h q).mpr hq
  · exact Or.inl ((seeds_contains_iff w h p).mp hp)

theorem ffStep_eq_nil (mask : ℕ → ℕ) (w h : ℕ) (s : FFState) (hq : s.queue = []) :
    ffStep mask w h s = s := by
  unfold ffStep
  rw [hq]

theorem ffStep_eq_cons (mask : ℕ → ℕ) (w h : ℕ) (s : FFState) (p : ℕ) (rest : List ℕ)
    (hq : s.queue = p :: rest) :
    ffStep mask w h s =
      ffDirs.foldl (ffVisit mask w h (p % w) (p / w)) { s with queue := rest } := by
  unfold ffStep
  rw [hq]

theorem ffStep_visited_mono (mask : ℕ → ℕ) (w h : ℕ) (s : FFState) (i : ℕ)
    (hi : s.visited i = true) : (ffStep mask w h s).visited i = true := by
  cases hq : s.queue with
  | nil => rw [ffStep_eq_nil mask w h s hq]; exact hi
  | cons p rest =>
    rw [ffStep_eq_cons mask w h s p rest hq]
    exact ffFold_visited_mono mask w h (p % w) (p / w) ffDirs _ i hi

theorem ffStep_bg_mono (mask : ℕ → ℕ) (w h : ℕ) (s : FFState) (i : ℕ)
    (hi : s.isBackground i = true) : (ffStep mask w h s).isBackground i = true := by
  cases hq : s.queue with
  | nil => rw [ffStep_eq_nil mask w h s hq]; exact hi
  | cons p rest =>
    rw [ffStep_eq_cons mask w h s p rest hq]
    exact ffFold_bg_mono mask w h (p % w) (p / w) ffDirs _ i hi

theorem ffStep_inv (mask : ℕ → ℕ) (w h : ℕ) (s : FFState) (hs : ffInv mask w h s) :
    ffInv mask w h (ffStep mask w h s) := by
  obtain ⟨hvb, hsound, hqv, hclosed⟩ := hs
  cases hq : s.queue with
  | nil => rw [ffStep_eq_nil mask w h s hq]; exact ⟨hvb, hsound, hqv, hclosed⟩
  | cons p rest =>
    rw [ffStep_eq_cons mask w h s p rest hq]
    have hpvis : s.visited p = true := hqv p (by rw [hq]; exact List.mem_cons_self p rest)
    have hpreach : ffReach mask w h p := hsound p hpvis
    have hqv0 : ∀ q ∈ ({ s with queue := rest } : FFState).queue,
        ({ s with queue := rest } : FFState).visited q = true := by
      intro q hq'
      exact hqv q (by rw [hq]; exact List.mem_cons_of_mem p hq')
    refine ⟨ffFold_vis_eq_bg mask w h (p % w) (p / w) ffDirs _ hvb,
      ffFold_sound mask w h p ffDirs (fun d hd => hd) _ hpreach hsound,
      ffFold_queue_visited mask w h (p % w) (p / w) ffDirs _ hqv0, ?_⟩
    intro p' hp'
    rcases ffFold_new_queued mask w h (p % w) (p / w) ffDirs _ p' hp' with hold | hqnew
    · rcases hclosed p' hold with hqueue | hexp
      · rw [hq] at hqueue
        rcases List.mem_cons.mp hqueue with rfl | hrest
        · right
          intro q hadj h0
          obtain ⟨d, hd, b1, b2, b3, b4, hqeq⟩ := hadj
          rw [hqeq]
          exact ffFold_marks mask w h (p' % w) (p' / w) ffDirs _ d hd ⟨b1, b2, b3, b4⟩
            (by rw [← hqeq]; exact h0)
        · exact Or.inl (ffFold_queue_mono mask w h (p % w) (p / w) ffDirs _ p' hrest)
      · right
        intro q hadj h0
        exact ffFold_visited_mono mask w h (p % w) (p / w) ffDirs _ q (hexp q hadj h0)
    · exact Or.inl hqnew

theorem ffRun_inv (mask : ℕ → ℕ) (w h : ℕ) :
    ∀ (fuel : ℕ) (s : FFState), ffInv mask w h s → ffInv mask w h (ffRun mask w h fuel s) := by
  intro fuel
  induction fuel with
  | zero => exact fun s hs => hs
  | succ fuel ih =>
    intro s hs
    show ffInv mask w h (ffRun mask w h (fuel + 1) s)
    unfold ffRun
    cases hq : s.queue with
    | nil => exact hs
    | cons p rest => exact ih _ (ffStep_inv mask w h s hs)

theorem ffRun_visited_mono (mask : ℕ → ℕ) (w h : ℕ) :
    ∀ (fuel : ℕ) (s : FFState) (i : ℕ), s.visited i = true →
      (ffRun mask w h fuel s).visited i = true := by
  intro fuel
  induction fuel with
  | zero => exact fun s i hi => hi
  | succ fuel ih =>
    intro s i hi
    unfold ffRun
    cases hq : s.queue with
    | nil => exact hi
    | cons p rest => exact ih _ i (ffStep_visited_mono mask w h s i hi)

theorem ffRun_bg_mono (mask : ℕ → ℕ) (w h : ℕ) :
    ∀ (fuel : ℕ) (s : FFState) (i : ℕ), s.isBackground i = true →
      (ffRun mask w h fuel s).isBackground i = true := by
  intro fuel
  induction fuel with
  | zero => exact fun s i hi => hi
  | succ fuel ih =>
    intro s i hi
    unfold ffRun
    cases hq : s.queue with
    | nil => exact hi
    | cons p rest => exact ih _ i (ffStep_bg_mono mask w h s i hi)

/-! ## The flood fill: termination of the queue loop -/

theorem nbr_toNat_lt (w h : ℕ) (nx ny : ℤ) (h1 : 0 ≤ nx) (h2 : nx < w) (h3 : 0 ≤ ny)
    (h4 : ny < h) : (ny * w + nx).toNat < w * h := by
  obtain ⟨a, rfl⟩ := Int.eq_ofNat_of_zero_le h1
  obtain ⟨b, rfl⟩ := Int.eq_ofNat_of_zero_le h3
  have ha : a < w := by exact_mod_cast h2
  have hb : b < h := by exact_mod_cast h4
  have hcast : ((b : ℤ) * w + a) = ((b * w + a : ℕ) : ℤ) := by push_cast; ring
  rw [hcast, Int.toNat_natCast]
  exact idx_lt w h a b ha hb

/-- Number of yet-unvisited pixel indices in range. -/
def unvisCard (w h : ℕ) (v : ℕ → Bool) : ℕ :=
  ((Finset.range (w * h)).filter (fun i => v i = false)).card

/-- Termination potential of the queue loop. -/
def ffPhi (w h : ℕ) (s : FFState) : ℕ := s.queue.length + unvisCard w h s.visited

theorem unvisCard_update (w h n : ℕ) (v : ℕ → Bool) (hn : n < w * h) (hv : v n = false) :
    unvisCard w h (Function.update v n true) + 1 = unvisCard w h v := by
  have hset : (Finset.range (w * h)).filter (fun i => Function.update v n true i = false) =
      ((Finset.range (w * h)).filter (fun i => v i = false)).erase n := by
    ext i
    simp only [Finset.mem_filter, Finset.mem_erase, Finset.mem_range, Function.update_apply]
    constructor
    · rintro ⟨hir, hiv⟩
      by_cases hin : i = n
      · rw [if_pos hin] at hiv
        exact absurd hiv (by simp)
      · rw [if_neg hin] at hiv
        exact ⟨hin, hir, hiv⟩
    · rintro ⟨hin, hir, hiv⟩
      exact ⟨hir, by rw [if_neg hin]; exact hiv⟩
  have hmem : n ∈ (Finset.range (w * h)).filter (fun i => v i = false) := by
    simp only [Finset.mem_filter, Finset.mem_range]
    exact ⟨hn, hv⟩
  have hpos := Finset.card_pos.mpr ⟨n, hmem⟩
  rw [unvisCard, unvisCard, hset, Finset.card_erase_of_mem hmem]
  omega

theorem ffVisit_phi (mask : ℕ → ℕ) (w h x y : ℕ) (s : FFState) (d : ℤ × ℤ) :
    ffPhi w h (ffVisit mask w h x y s d) ≤ ffPhi w h s := by
  unfold ffVisit
  split
  · rename_i h1
    split
    · rename_i h2
      have hn : ((((y : ℤ) + d.2) * w + ((x : ℤ) + d.1)).toNat) < w * h :=
        nbr_toNat_lt w h _ _ h1.1 h1.2.1 h1.2.2.1 h1.2.2.2
      have hupd := unvisCard_update w h _ s.visited hn h2.1
      unfold ffPhi
      simp only [List.length_append, List.length_singleton]
      omega
    · exact le_refl _
  · exact le_refl _

theorem ffFold_phi (mask : ℕ → ℕ) (w h x y : ℕ) (l : List (ℤ × ℤ)) :
    ∀ s : FFState, ffPhi w h (l.foldl (ffVisit mask w h x y) s) ≤ ffPhi w h s := by
  induction l with
  | nil => exact fun s => le_refl _
  | cons d l ih =>
    intro s
    rw [List.foldl_cons]
    exact le_trans (ih _) (ffVisit_phi mask w h x y s d)

theorem ffStep_phi (mask : ℕ → ℕ) (w h : ℕ) (s : FFState) (p : ℕ) (rest : List ℕ)
    (hq : s.queue = p :: rest) : ffPhi w h (ffStep mask w h s) + 1 ≤ ffPhi w h s := by
  rw [ffStep_eq_cons mask w h s p rest hq]
  have hfold := ffFold_phi mask w h (p % w) (p / w) ffDirs ({ s with queue := rest } : FFState)
  have hlen : ffPhi w h ({ s with queue := rest } : FFState) + 1 = ffPhi w h s := by
    unfold ffPhi
    rw [hq]
    simp only [List.length_cons]
    omega
  omega

theorem ffRun_queue_eq_nil (mask : ℕ → ℕ) (w h : ℕ) :
    ∀ (fuel : ℕ) (s : FFState), ffPhi w h s ≤ fuel → (ffRun mask w h fuel s).queue = [] := by
  intro fuel
  induction fuel with
  | zero =>
    intro s hs
    have hlen : s.queue.length = 0 := by
      unfold ffPhi at hs
      omega
    exact List.eq_nil_of_length_eq_zero hlen
  | succ fuel ih =>
    intro s hs
    unfold ffRun
    cases hq : s.queue with
    | nil => exact hq
    | cons p rest =>
      have := ffStep_phi mask w h s p rest hq
      exact ih _ (by omega)

theorem ffFinal_queue_nil (mask : ℕ → ℕ) (w h : ℕ) : (ffFinal mask w h).queue = [] := by
  apply ffRun_queue_eq_nil
  have hle : unvisCard w h (ffInit w h).visited ≤ w * h := by
    calc unvisCard w h (ffInit w h).visited
        ≤ (Finset.range (w * h)).card := Finset.card_filter_le _ _
      _ = w * h := Finset.card_range _
  unfold ffPhi ffFuel
  have : (ffInit w h).queue.length = (ffSeeds w h).length := rfl
  omega

/-! ## The flood fill: characterisation -/

theorem ffFinal_visited_iff (mask : ℕ → ℕ) (w h i : ℕ) :
    (ffFinal mask w h).visited i = true ↔ ffReach mask w h i := by
  have hinv : ffInv mask w h (ffFinal mask w h) :=
    ffRun_inv mask w h (ffFuel w h) (ffInit w h) (ffInit_inv mask w h)
  constructor
  · exact hinv.2.1 i
  · intro hreach
    induction hreach with
    | seed p hp =>
      exact ffRun_visited_mono mask w h _ _ p ((seeds_contains_iff w h p).mpr hp)
    | step p q hr hadj h0 ih =>
      rcases hinv.2.2.2 p ih with hqueue | hexp
      · rw [ffFinal_queue_nil mask w h] at hqueue
        exact absurd hqueue (List.not_mem_nil p)
      · exact hexp q hadj h0

theorem ffFinal_bg_iff (mask : ℕ → ℕ) (w h i : ℕ) :
    (ffFinal mask w h).isBackground i = true ↔ ffReach mask w h i := by
  have hinv : ffInv mask w h (ffFinal mask w h) :=
    ffRun_inv mask w h (ffFuel w h) (ffInit w h) (ffInit_inv mask w h)
  rw [← hinv.1 i]
  exact ffFinal_visited_iff mask w h i

theorem floodFill_keeps_nonzero (mask : ℕ → ℕ) (w h i : ℕ) (h0 : mask i ≠ 0) :
    floodFillHoles mask w h i = mask i := by
  unfold floodFillHoles
  exact if_neg (fun hc => h0 hc.2.1)

theorem floodFill_reached (mask : ℕ → ℕ) (w h i : ℕ) (hr : ffReach mask w h i) :
    floodFillHoles mask w h i = mask i := by
  unfold floodFillHoles
  refine if_neg ?_
  rintro ⟨-, -, hbg⟩
  rw [(ffFinal_bg_iff mask w h i).mpr hr] at hbg
  exact Bool.noConfusion hbg

theorem floodFill_unreached (mask : ℕ → ℕ) (w h i : ℕ) (hi : i < w * h) (h0 : mask i = 0)
    (hnr : ¬ ffReach mask w h i) : floodFillHoles mask w h i = 1 := by
  unfold floodFillHoles
  refine if_pos ⟨hi, h0, ?_⟩
  cases hbg : (ffFinal mask w h).isBackground i with
  | false => rfl
  | true => exact absurd ((ffFinal_bg_iff mask w h i).mp hbg) hnr

theorem floodFill_oob (mask : ℕ → ℕ) (w h i : ℕ) (hi : ¬ i < w * h) :
    floodFillHoles mask w h i = mask i := by
  unfold floodFillHoles
  exact if_neg (fun hc => hi hc.1)

/-- C1 (amended): the flood fill is seeded at *every* border pixel, whatever
its label; `isBackground` ends up marking exactly the pixels reachable that
way (`ffReach`), every in-range background pixel not reached is relabelled
foreground, every reached pixel keeps its label, and foreground pixels are
never relabelled. -/
theorem floodFill_contract (mask : ℕ → ℕ) (w h i : ℕ) (hi : i < w * h) :
    ((ffFinal mask w h).isBackground i = true ↔ ffReach mask w h i) ∧
    (mask i = 0 → ¬ ffReach mask w h i → floodFillHoles mask w h i = 1) ∧
    (ffReach mask w h i → floodFillHoles mask w h i = mask i) ∧
    (mask i ≠ 0 → floodFillHoles mask w h i = mask i) :=
  ⟨ffFinal_bg_iff mask w h i,
   fun h0 hnr => floodFill_unreached mask w h i hi h0 hnr,
   floodFill_reached mask w h i,
   floodFill_keeps_nonzero mask w h i⟩

theorem floodFill_contract_witness :
    (0 : ℕ) < 1 * 1 ∧
      ((fun _ : ℕ => 0) 0 ≠ 0 → floodFillHoles (fun _ => 0) 1 1 0 = (fun _ : ℕ => 0) 0) :=
  ⟨by decide, (floodFill_contract (fun _ => 0) 1 1 0 (by decide)).2.2.2⟩

/-- Counterexample mask for C1: `3 × 3`, all pixels foreground except the
centre pixel (index `4`), which is background. -/
def mask3 : ℕ → ℕ := fun i => if i = 4 then 0 else 1

theorem ffReachSpec_mask3_empty : ∀ i, ¬ ffReachSpec mask3 3 3 i := by
  intro i hr
  induction hr with
  | seed p hp h0 =>
    have hp4 : p = 4 := by
      by_contra hne
      rw [mask3] at h0
      rw [if_neg hne] at h0
      exact Nat.one_ne_zero h0
    rw [hp4] at hp
    exact absurd hp (by decide)
  | step p q hr hadj h0 ih => exact ih

/-- C1 counterexample: on `mask3` no border pixel is labelled background, so
the claimed fill (seeded only at background-labelled border pixels) reaches
nothing and would relabel the centre pixel to foreground; the code's fill,
seeded at every border pixel, reaches the centre and leaves it background
(`0`). -/
theorem floodFill_spec_counterexample :
    floodFillHoles mask3 3 3 4 = 0 ∧ mask3 4 = 0 ∧ ¬ ffReachSpec mask3 3 3 4 :=
  ⟨by decide, rfl, ffReachSpec_mask3_empty 4⟩

theorem ffReach_of_result_zero (mask : ℕ → ℕ) (w h i : ℕ) (hi : i < w * h)
    (h1 : floodFillHoles mask w h i = 0) : mask i = 0 ∧ ffReach mask w h i := by
  have h0 : mask i = 0 := by
    by_contra h0
    rw [floodFill_keeps_nonzero mask w h i h0] at h1
    exact h0 h1
  refine ⟨h0, ?_⟩
  by_contra hnr
  rw [floodFill_unreached mask w h i hi h0 hnr] at h1
  exact Nat.one_ne_zero h1

theorem ffReach_stable (mask : ℕ → ℕ) (w h p : ℕ) (hr : ffReach mask w h p) :
    ffReach (floodFillHoles mask w h) w h p := by
  induction hr with
  | seed p hp => exact ffReach.seed p hp
  | step p q hr hadj h0 ih =>
    refine ffReach.step p q ih hadj ?_
    rw [floodFill_reached mask w h q (ffReach.step p q hr hadj h0)]
    exact h0

/-- C7: hole filling is idempotent: a second run of `floodFillHoles` on the
output of a first run returns that output unchanged, because every pixel the
first run left background was reached from the border, and the same path is
still background after the run. -/
theorem floodFill_idempotent (mask : ℕ → ℕ) (w h : ℕ) :
    floodFillHoles (floodFillHoles mask w h) w h = floodFillHoles mask w h := by
  funext i
  by_cases h1 : floodFillHoles mask w h i = 0
  · by_cases hi : i < w * h
    · obtain ⟨h0, hreach⟩ := ffReach_of_result_zero mask w h i hi h1
      exact floodFill_reached _ w h i (ffReach_stable mask w h i hreach)
    · exact floodFill_oob _ w h i hi
  · exact floodFill_keeps_nonzero _ w h i h1

/-! ## The outermost ring -/

theorem adaptiveThreshold_nonneg (data : ℤ → ℚ) (w h : ℕ) :
    0 ≤ adaptiveThreshold data w h := by
  unfold adaptiveThreshold jsSqrt
  have hs := Rat.sqrt_nonneg (bgVariance data w h)
  have hmul : 0 ≤ Rat.sqrt (bgVariance data w h) * 0.7 :=
    mul_nonneg hs (by norm_num)
  linarith

theorem buildMask_not_interior (data : ℤ → ℚ) (w h : ℕ) (avgBg : ℚ × ℚ × ℚ) (thr : ℚ)
    (hthr : 0 ≤ thr) (i : ℕ) (hni : ¬ interiorAt w h (i % w) (i / w)) :
    buildMask data w h avgBg thr i = 0 := by
  unfold buildMask colorDistMap edgeMap
  rw [if_neg hni, if_neg hni]
  refine if_neg ?_
  rintro ⟨-, hgt⟩
  have h0 : (0 : ℚ) + min 255 0 / 255 * 80 = 0 := by norm_num
  rw [h0] at hgt
  exact absurd hgt (not_lt.mpr hthr)

theorem ring_not_interior (w h x y : ℕ) (hx : x < w) (hy : y < h)
    (hring : x = 0 ∨ x = w - 1 ∨ y = 0 ∨ y = h - 1) : ¬ interiorAt w h x y := by
  rintro ⟨h1, h2, h3, h4⟩
  omega

theorem dilateMask_not_interior (data : ℤ → ℚ) (w h : ℕ) (avgBg : ℚ × ℚ × ℚ) (thr : ℚ)
    (mask : ℕ → ℕ) (x y : ℕ) (hx : x < w) (hni : ¬ interiorAt w h x y) :
    dilateMask data w h avgBg thr mask (y * w + x) = mask (y * w + x) := by
  rw [dilateMask, dilate_foldl_apply]
  refine if_neg ?_
  rintro ⟨p, hp, hj, -, -, -⟩
  have hint := (mem_interiorList w h p).mp hp
  have hint2 := hint
  simp only [interiorAt] at hint2
  obtain ⟨hpx, hpy⟩ := idx_inj w p.1 x p.2 y (by omega) hx hj
  rw [hpx, hpy] at hint
  exact hni hint

theorem ring_mem_ffSeeds (w h x y : ℕ) (hx : x < w) (hy : y < h)
    (hring : x = 0 ∨ x = w - 1 ∨ y = 0 ∨ y = h - 1) : y * w + x ∈ ffSeeds w h := by
  unfold ffSeeds
  rw [List.mem_append]
  by_cases hy0 : y = 0
  · left
    simp only [List.mem_flatMap, List.mem_range, List.mem_cons, List.mem_singleton,
      List.not_mem_nil, or_false]
    exact ⟨x, hx, Or.inl (by rw [hy0]; ring)⟩
  · by_cases hyh : y = h - 1
    · left
      simp only [List.mem_flatMap, List.mem_range, List.mem_cons, List.mem_singleton,
        List.not_mem_nil, or_false]
      exact ⟨x, hx, Or.inr (by rw [hyh])⟩
    · right
      simp only [List.mem_flatMap, List.mem_range'_1, List.mem_cons, List.mem_singleton,
        List.not_mem_nil, or_false]
      refine ⟨y, ⟨by omega, by omega⟩, ?_⟩
      rcases hring with rfl | hxw | rfl | h4
      · exact Or.inl (by ring)
      · exact Or.inr (by rw [hxw])
      · exact absurd rfl hy0
      · exact absurd h4 hyh

theorem floodFill_ring (mask : ℕ → ℕ) (w h x y : ℕ) (hx : x < w) (hy : y < h)
    (hring : x = 0 ∨ x = w - 1 ∨ y = 0 ∨ y = h - 1) :
    floodFillHoles mask w h (y * w + x) = mask (y * w + x) :=
  floodFill_reached mask w h _ (ffReach.seed _ (ring_mem_ffSeeds w h x y hx hy hring))

theorem ring_stage_facts (data : ℤ → ℚ) (w h x y : ℕ) (hx : x < w) (hy : y < h)
    (hring : x = 0 ∨ x = w - 1 ∨ y = 0 ∨ y = h - 1) :
    buildMask data w h (bgAvg data w h) (adaptiveThreshold data w h) (y * w + x) = 0 ∧
    dilateMask data w h (bgAvg data w h) (adaptiveThreshold data w h)
      (buildMask data w h (bgAvg data w h) (adaptiveThreshold data w h)) (y * w + x) = 0 ∧
    (processWatchImage data w h).2 (y * w + x) = 0 ∧
    (processWatchImage data w h).1 (4 * ((y : ℤ) * w + x) + 3) = 0 := by
  have hni : ¬ interiorAt w h x y := ring_not_interior w h x y hx hy hring
  have hb : buildMask data w h (bgAvg data w h) (adaptiveThreshold data w h) (y * w + x) = 0 := by
    apply buildMask_not_interior data w h _ _ (adaptiveThreshold_nonneg data w h)
    rw [idx_mod w x y hx, idx_div w x y hx]
    exact hni
  have hd : dilateMask data w h (bgAvg data w h) (adaptiveThreshold data w h)
      (buildMask data w h (bgAvg data w h) (adaptiveThreshold data w h)) (y * w + x) = 0 := by
    rw [dilateMask_not_interior data w h _ _ _ x y hx hni]
    exact hb
  have hm : (processWatchImage data w h).2 (y * w + x) = 0 := by
    show improvedWatchMask data w h (bgAvg data w h) (adaptiveThreshold data w h) (y * w + x) = 0
    unfold improvedWatchMask
    rw [floodFill_ring _ w h x y hx hy hring]
    exact hd
  refine ⟨hb, hd, hm, ?_⟩
  show applyMask data w h
    (improvedWatchMask data w h (bgAvg data w h) (adaptiveThreshold data w h))
    (4 * ((y : ℤ) * w + x) + 3) = 0
  unfold applyMask
  have hlt : y * w + x < w * h := idx_lt w h x y hx hy
  have hcast : (4 * ((y : ℤ) * w + x) + 3) = ((4 * (y * w + x) + 3 : ℕ) : ℤ) := by
    push_cast; ring
  rw [hcast]
  refine if_pos ⟨by positivity, ?_, ?_, ?_⟩
  · have : (4 * (y * w + x) + 3 : ℕ) < 4 * (w * h) := by omega
    calc ((4 * (y * w + x) + 3 : ℕ) : ℤ) < ((4 * (w * h) : ℕ) : ℤ) := by exact_mod_cast this
      _ = 4 * (w : ℤ) * h := by push_cast; ring
  · omega
  · have hdiv : ((4 * (y * w + x) + 3 : ℕ) : ℤ) / 4 = ((y * w + x : ℕ) : ℤ) := by omega
    rw [hdiv, Int.toNat_natCast]
    exact hm

/-- C8: every pixel of the outermost 1-pixel ring is labelled background by
the Mask Builder (the maps are zero there and the threshold is at least 32),
is left unchanged by the Mask Refiner (its loop never visits the ring) and
by the Hole Filler (every ring pixel is a seed, hence reached), and
therefore ends with alpha 0, regardless of the pixel's color. -/
theorem ring_pixel_invariant (data : ℤ → ℚ) (w h x y : ℕ) (hx : x < w) (hy : y < h)
    (hring : x = 0 ∨ x = w - 1 ∨ y = 0 ∨ y = h - 1) :
    buildMask data w h (bgAvg data w h) (adaptiveThreshold data w h) (y * w + x) = 0 ∧
    dilateMask data w h (bgAvg data w h) (adaptiveThreshold data w h)
      (buildMask data w h (bgAvg data w h) (adaptiveThreshold data w h)) (y * w + x) = 0 ∧
    (processWatchImage data w h).2 (y * w + x) = 0 ∧
    (processWatchImage data w h).1 (4 * ((y : ℤ) * w + x) + 3) = 0 :=
  ring_stage_facts data w h x y hx hy hring

theorem ring_pixel_invariant_witness :
    (0 : ℕ) < 1 ∧
      (processWatchImage (fun _ => 128) 1 1).1
        (4 * (((0 : ℕ) : ℤ) * (1 : ℕ) + ((0 : ℕ) : ℤ)) + 3) = 0 :=
  ⟨by decide,
    (ring_pixel_invariant (fun _ => 128) 1 1 0 0 (by decide) (by decide) (Or.inl rfl)).2.2.2⟩

/-- C2 (amended): a border-band pixel whose color is within threshold of the
background mean can still end as foreground when the Sobel edge term lifts
the combined metric over the threshold (counterexample
`borderBand_counterexample` below); what holds for every image is that every
pixel of the outermost 1-pixel ring of the band ends as background (alpha 0)
after the full pipeline. -/
theorem borderBand_ring_transparent (data : ℤ → ℚ) (w h x y : ℕ) (hx : x < w) (hy : y < h)
    (hring : x = 0 ∨ x = w - 1 ∨ y = 0 ∨ y = h - 1) :
    (processWatchImage data w h).1 (4 * ((y : ℤ) * w + x) + 3) = 0 :=
  (ring_stage_facts data w h x y hx hy hring).2.2.2

theorem borderBand_ring_transparent_witness :
    (0 : ℕ) < 2 ∧
      (processWatchImage (fun _ => 7) 2 2).1
        (4 * (((0 : ℕ) : ℤ) * (2 : ℕ) + ((1 : ℕ) : ℤ)) + 3) = 0 :=
  ⟨by decide,
    borderBand_ring_transparent (fun _ => 7) 2 2 1 0 (by decide) (by decide)
      (Or.inr (Or.inl rfl))⟩

/-! ## Uniform images -/

/-- The buffer holds the same RGB triple at every pixel slot. -/
def uniformData (data : ℤ → ℚ) (r g b : ℚ) : Prop :=
  ∀ k : ℤ, data (4 * k) = r ∧ data (4 * k + 1) = g ∧ data (4 * k + 2) = b

theorem jsSqrt_zero : jsSqrt 0 = 0 := by
  unfold jsSqrt
  rw [show (0 : ℚ) = 0 * 0 from by norm_num, Rat.sqrt_eq]
  norm_num

theorem borderWidth_pos (w h : ℕ) : 0 < borderWidth w h :=
  lt_of_lt_of_le (by norm_num) (Nat.le_max_left _ _)

theorem sampleCoords_ne_nil (w h : ℕ) (hw : 1 ≤ w) : sampleCoords w h ≠ [] := by
  intro hnil
  have hmem : ((0 : ℤ), (0 : ℤ)) ∈ sampleCoords w h :=
    (mem_sampleCoords w h _).mpr (Or.inl ⟨0, hw, 0, borderWidth_pos w h, Or.inl rfl⟩)
  rw [hnil] at hmem
  exact List.not_mem_nil _ hmem

theorem avg_const (samples : List (ℚ × ℚ × ℚ)) (r g b : ℚ) (hne : samples ≠ [])
    (hall : ∀ s ∈ samples, s = (r, g, b)) : calculateAverageColor samples = (r, g, b) := by
  have hlen : samples.length ≠ 0 := fun h0 => hne (List.eq_nil_of_length_eq_zero h0)
  have hq : ((samples.length : ℚ)) ≠ 0 := Nat.cast_ne_zero.mpr hlen
  unfold calculateAverageColor
  rw [if_neg hlen]
  have h1 : samples.map (fun s => s.1) = List.replicate samples.length r := by
    rw [List.eq_replicate]
    refine ⟨List.length_map samples _, fun v hv => ?_⟩
    obtain ⟨s, hs, rfl⟩ := List.mem_map.mp hv
    rw [hall s hs]
  have h2 : samples.map (fun s => s.2.1) = List.replicate samples.length g := by
    rw [List.eq_replicate]
    refine ⟨List.length_map samples _, fun v hv => ?_⟩
    obtain ⟨s, hs, rfl⟩ := List.mem_map.mp hv
    rw [hall s hs]
  have h3 : samples.map (fun s => s.2.2) = List.replicate samples.length b := by
    rw [List.eq_replicate]
    refine ⟨List.length_map samples _, fun v hv => ?_⟩
    obtain ⟨s, hs, rfl⟩ := List.mem_map.mp hv
    rw [hall s hs]
  rw [h1, h2, h3, List.sum_replicate, List.sum_replicate, List.sum_replicate,
    nsmul_eq_mul, nsmul_eq_mul, nsmul_eq_mul,
    mul_div_cancel_left₀ r hq, mul_div_cancel_left₀ g hq, mul_div_cancel_left₀ b hq]

theorem variance_const (samples : List (ℚ × ℚ × ℚ)) (avg : ℚ × ℚ × ℚ)
    (hall : ∀ s ∈ samples, s = avg) : calculateColorVariance samples avg = 0 := by
  unfold calculateColorVariance
  split
  · rfl
  · have hz : samples.map (fun s =>
        (s.1 - avg.1) * (s.1 - avg.1) + (s.2.1 - avg.2.1) * (s.2.1 - avg.2.1) +
        (s.2.2 - avg.2.2) * (s.2.2 - avg.2.2)) = List.replicate samples.length 0 := by
      rw [List.eq_replicate]
      refine ⟨List.length_map samples _, fun v hv => ?_⟩
      obtain ⟨s, hs, rfl⟩ := List.mem_map.mp hv
      rw [hall s hs]
      ring
    rw [hz, List.sum_replicate, smul_zero, zero_div]

theorem uniform_samples (data : ℤ → ℚ) (w h : ℕ) (r g b : ℚ) (hu : uniformData data r g b) :
    ∀ s ∈ borderSamples data w h, s = (r, g, b) := by
  intro s hs
  obtain ⟨c, hc, rfl⟩ := List.mem_map.mp hs
  unfold addSample
  obtain ⟨h1, h2, h3⟩ := hu (c.2 * w + c.1)
  rw [show (c.2 * (w : ℤ) + c.1) * 4 = 4 * (c.2 * (w : ℤ) + c.1) from mul_comm _ _, h1, h2, h3]

theorem bgAvg_uniform (data : ℤ → ℚ) (w h : ℕ) (r g b : ℚ) (hw : 1 ≤ w)
    (hu : uniformData data r g b) : bgAvg data w h = (r, g, b) := by
  unfold bgAvg
  refine avg_const _ r g b ?_ (uniform_samples data w h r g b hu)
  intro hnil
  exact sampleCoords_ne_nil w h hw (List.map_eq_nil_iff.mp hnil)

theorem bgVariance_uniform (data : ℤ → ℚ) (w h : ℕ) (r g b : ℚ) (hw : 1 ≤ w)
    (hu : uniformData data r g b) : bgVariance data w h = 0 := by
  unfold bgVariance
  rw [bgAvg_uniform data w h r g b hw hu]
  exact variance_const _ _ (uniform_samples data w h r g b hu)

theorem adaptiveThreshold_uniform (data : ℤ → ℚ) (w h : ℕ) (r g b : ℚ) (hw : 1 ≤ w)
    (hu : uniformData data r g b) : adaptiveThreshold data w h = 32 := by
  unfold adaptiveThreshold
  rw [bgVariance_uniform data w h r g b hw hu, jsSqrt_zero]
  norm_num

theorem colorDistAt_uniform (data : ℤ → ℚ) (w : ℕ) (r g b : ℚ) (x y : ℕ)
    (hu : uniformData data r g b) : colorDistAt data w (r, g, b) x y = 0 := by
  unfold colorDistAt
  obtain ⟨h1, h2, h3⟩ := hu ((y : ℤ) * w + x)
  rw [show ((y : ℤ) * (w : ℤ) + (x : ℤ)) * 4 = 4 * ((y : ℤ) * (w : ℤ) + (x : ℤ)) from
    mul_comm _ _, h1, h2, h3]
  have hz : ∀ A B C : ℚ, (r - r) * (r - r) * A + (g - g) * (g - g) * B +
      (b - b) * (b - b) * C = 0 := by intros; ring
  rw [hz]
  exact jsSqrt_zero

theorem intensityAt_uniform (data : ℤ → ℚ) (w : ℕ) (x y : ℤ) (r g b : ℚ)
    (hu : uniformData data r g b) : intensityAt data w x y = (r + g + b) / 3 := by
  unfold intensityAt
  obtain ⟨h1, h2, h3⟩ := hu (y * w + x)
  rw [show (y * (w : ℤ) + x) * 4 = 4 * (y * (w : ℤ) + x) from mul_comm _ _, h1, h2, h3]

theorem gradAt_uniform_zero (ker : List ℚ) (data : ℤ → ℚ) (w x y : ℕ) (r g b : ℚ)
    (hu : uniformData data r g b) (hker : ker = sobelX ∨ ker = sobelY) :
    gradAt ker data w x y = 0 := by
  have hI : ∀ x' y' : ℤ, intensityAt data w x' y' = (r + g + b) / 3 := fun x' y' =>
    intensityAt_uniform data w x' y' r g b hu
  unfold gradAt
  rw [show List.range 3 = [0, 1, 2] from by decide]
  simp only [List.flatMap_cons, List.flatMap_nil, List.map_cons, List.map_nil,
    List.append_nil, List.sum_cons, List.sum_nil, List.sum_append, hI]
  rcases hker with rfl | rfl
  · norm_num [sobelX, List.getD]
  · norm_num [sobelY, List.getD]
    ring

theorem edgeAt_uniform (data : ℤ → ℚ) (w : ℕ) (r g b : ℚ) (x y : ℕ)
    (hu : uniformData data r g b) : edgeAt data w x y = 0 := by
  unfold edgeAt
  rw [gradAt_uniform_zero sobelX data w x y r g b hu (Or.inl rfl),
    gradAt_uniform_zero sobelY data w x y r g b hu (Or.inr rfl)]
  rw [show (0 : ℚ) * 0 + 0 * 0 = 0 from by norm_num]
  exact jsSqrt_zero

theorem buildMask_uniform (data : ℤ → ℚ) (w h : ℕ) (r g b : ℚ)
    (hu : uniformData data r g b) (i : ℕ) : buildMask data w h (r, g, b) 32 i = 0 := by
  unfold buildMask colorDistMap edgeMap
  refine if_neg ?_
  rintro ⟨-, hgt⟩
  revert hgt
  by_cases hc : interiorAt w h (i % w) (i / w)
  · rw [if_pos hc, if_pos hc, colorDistAt_uniform data w r g b _ _ hu,
      edgeAt_uniform data w r g b _ _ hu]
    intro hgt
    norm_num at hgt
  · rw [if_neg hc, if_neg hc]
    intro hgt
    norm_num at hgt

theorem dilateMask_of_no_fg (data : ℤ → ℚ) (w h : ℕ) (avgBg : ℚ × ℚ × ℚ) (thr : ℚ)
    (mask : ℕ → ℕ) (hmask : ∀ j, mask j = 0) (i : ℕ) :
    dilateMask data w h avgBg thr mask i = mask i := by
  rw [dilateMask, dilate_foldl_apply]
  refine if_neg ?_
  rintro ⟨p, hp, hj, h0, hnbr, hcond⟩
  obtain ⟨ky, hky, kx, hkx, hm⟩ := hnbr
  rw [hmask _] at hm
  exact Nat.zero_ne_one hm

theorem ffReach_all_of_zero (mask : ℕ → ℕ) (w h : ℕ) (hmask : ∀ j, mask j = 0)
    (hw : 1 ≤ w) : ∀ y, y < h → ∀ x, x < w → ffReach mask w h (y * w + x) := by
  intro y
  induction y with
  | zero =>
    intro hy x hx
    exact ffReach.seed _ (ring_mem_ffSeeds w h x 0 hx hy (Or.inr (Or.inr (Or.inl rfl))))
  | succ y ih =>
    intro hy x hx
    have hprev := ih (by omega) x hx
    refine ffReach.step (y * w + x) ((y + 1) * w + x) hprev ?_ (hmask _)
    have hm := idx_mod w x y hx
    have hd := idx_div w x y hx
    refine ⟨(0, 1), by decide, ?_, ?_, ?_, ?_, ?_⟩
    · rw [hm]; positivity
    · rw [hm]
      simpa using (by exact_mod_cast hx : ((x : ℤ)) < w)
    · rw [hd]; positivity
    · rw [hd]
      simpa using (by exact_mod_cast hy : ((y : ℤ)) + 1 < h)
    · rw [hm, hd]
      have hcast : (((y : ℤ)) + 1) * w + ((x : ℤ) + 0) = (((y + 1) * w + x : ℕ) : ℤ) := by
        push_cast; ring
      rw [hcast, Int.toNat_natCast]

/-- C5: a uniform image (every pixel carrying the same RGB triple) comes out
of the full pipeline with every alpha byte in range set to `0` — the sampled
background mean equals the pixel color, the variance is `0`, the threshold is
`32`, no pixel passes the combined metric, the dilation finds no foreground
neighbour, and the flood fill reaches every pixel of the all-background
mask. -/
theorem uniform_image_transparent (data : ℤ → ℚ) (w h : ℕ) (r g b : ℚ)
    (hw : 1 ≤ w) (hh : 1 ≤ h) (hu : uniformData data r g b) (k : ℕ) (hk : k < w * h) :
    (processWatchImage data w h).1 (4 * (k : ℤ) + 3) = 0 := by
  have hmask : (processWatchImage data w h).2 k = 0 := by
    show improvedWatchMask data w h (bgAvg data w h) (adaptiveThreshold data w h) k = 0
    unfold improvedWatchMask
    rw [bgAvg_uniform data w h r g b hw hu, adaptiveThreshold_uniform data w h r g b hw hu]
    have hb : ∀ j, buildMask data w h (r, g, b) 32 j = 0 :=
      buildMask_uniform data w h r g b hu
    have hd : ∀ j, dilateMask data w h (r, g, b) 32 (buildMask data w h (r, g, b) 32) j = 0 :=
      fun j => by
        rw [dilateMask_of_no_fg data w h (r, g, b) 32 _ hb j]
        exact hb j
    have hxw : k % w < w := Nat.mod_lt k (by omega)
    have hyh : k / w < h := Nat.div_lt_of_lt_mul (by omega)
    have hreach : ffReach (dilateMask data w h (r, g, b) 32
        (buildMask data w h (r, g, b) 32)) w h k := by
      have hr := ffReach_all_of_zero _ w h hd hw (k / w) hyh (k % w) hxw
      rwa [show k / w * w + k % w = k from by
        rw [Nat.mul_comm]; exact Nat.div_add_mod k w] at hr
    rw [floodFill_reached _ w h k hreach]
    exact hd k
  show applyMask data w h
    (improvedWatchMask data w h (bgAvg data w h) (adaptiveThreshold data w h))
    (4 * (k : ℤ) + 3) = 0
  unfold applyMask
  refine if_pos ⟨by positivity, ?_, by omega, ?_⟩
  · have hlt : (4 * k + 3 : ℕ) < 4 * (w * h) := by omega
    calc (4 * (k : ℤ) + 3) = ((4 * k + 3 : ℕ) : ℤ) := by push_cast; ring
      _ < ((4 * (w * h) : ℕ) : ℤ) := by exact_mod_cast hlt
      _ = 4 * (w : ℤ) * h := by push_cast; ring
  · have hdiv : (4 * (k : ℤ) + 3) / 4 = ((k : ℕ) : ℤ) := by omega
    rw [hdiv, Int.toNat_natCast]
    exact hmask

theorem uniform_image_transparent_witness :
    1 ≤ 1 ∧ uniformData (fun _ => 128) 128 128 128 ∧ (0 : ℕ) < 1 * 1 ∧
      (processWatchImage (fun _ => 128) 1 1).1 (4 * ((0 : ℕ) : ℤ) + 3) = 0 :=
  ⟨le_refl 1, fun k => ⟨rfl, rfl, rfl⟩, by decide,
    uniform_image_transparent (fun _ => 128) 1 1 128 128 128 (le_refl 1) (le_refl 1)
      (fun k => ⟨rfl, rfl, rfl⟩) 0 (by decide)⟩

/-! ## A border-band pixel pushed to foreground by the edge term -/

/-- Counterexample image for C2: `22 × 22`, uniform gray `128` with alpha
`255`, except one black pixel at `(10, 10)` (pixel index `230`), which lies
outside the sampled border band. -/
def data22 : ℤ → ℚ := fun j =>
  if j % 4 = 3 then 255 else if j / 4 = 230 then 0 else 128

theorem sampleCoords22_ne : ∀ c ∈ sampleCoords 22 22, c.2 * 22 + c.1 ≠ 230 := by decide

theorem data22_sample (c : ℤ × ℤ) (hne : c.2 * 22 + c.1 ≠ 230) :
    addSample data22 22 c = (128, 128, 128) := by
  unfold addSample data22
  have h22 : (((22 : ℕ) : ℤ)) = 22 := by norm_num
  rw [h22]
  set m := c.2 * 22 + c.1 with hm
  rw [if_neg (by omega : ¬ m * 4 % 4 = 3), if_neg (by omega : ¬ m * 4 / 4 = 230),
    if_neg (by omega : ¬ (m * 4 + 1) % 4 = 3), if_neg (by omega : ¬ (m * 4 + 1) / 4 = 230),
    if_neg (by omega : ¬ (m * 4 + 2) % 4 = 3), if_neg (by omega : ¬ (m * 4 + 2) / 4 = 230)]

theorem borderSamples22 : ∀ s ∈ borderSamples data22 22 22, s = (128, 128, 128) := by
  intro s hs
  obtain ⟨c, hc, rfl⟩ := List.mem_map.mp hs
  exact data22_sample c (sampleCoords22_ne c hc)

theorem bgAvg22 : bgAvg data22 22 22 = (128, 128, 128) :=
  avg_const _ _ _ _
    (fun hnil => sampleCoords_ne_nil 22 22 (by norm_num) (List.map_eq_nil_iff.mp hnil))
    borderSamples22

theorem adaptiveThreshold22 : adaptiveThreshold data22 22 22 = 32 := by
  unfold adaptiveThreshold bgVariance
  rw [bgAvg22, variance_const _ _ borderSamples22, jsSqrt_zero]
  norm_num

theorem colorDist22 : colorDistAt data22 22 (128, 128, 128) 9 10 = 0 := by
  unfold colorDistAt
  have e0 : data22 ((((10 : ℕ) : ℤ) * ((22 : ℕ) : ℤ) + ((9 : ℕ) : ℤ)) * 4) = 128 := by
    norm_num [data22]
  have e1 : data22 ((((10 : ℕ) : ℤ) * ((22 : ℕ) : ℤ) + ((9 : ℕ) : ℤ)) * 4 + 1) = 128 := by
    norm_num [data22]
  have e2 : data22 ((((10 : ℕ) : ℤ) * ((22 : ℕ) : ℤ) + ((9 : ℕ) : ℤ)) * 4 + 2) = 128 := by
    norm_num [data22]
  rw [e0, e1, e2]
  have hz : ∀ A B C : ℚ, ((128 : ℚ) - 128) * (128 - 128) * A + (128 - 128) * (128 - 128) * B +
      (128 - 128) * (128 - 128) * C = 0 := by intros; ring
  rw [hz]
  exact jsSqrt_zero

theorem grad22X : gradAt sobelX data22 22 9 10 = -256 := by
  unfold gradAt
  rw [show List.range 3 = [0, 1, 2] from by decide]
  simp only [List.flatMap_cons, List.flatMap_nil, List.map_cons, List.map_nil,
    List.append_nil, List.sum_cons, List.sum_nil, List.sum_append]
  norm_num [intensityAt, data22, sobelX, List.getD]

theorem grad22Y : gradAt sobelY data22 22 9 10 = 0 := by
  unfold gradAt
  rw [show List.range 3 = [0, 1, 2] from by decide]
  simp only [List.flatMap_cons, List.flatMap_nil, List.map_cons, List.map_nil,
    List.append_nil, List.sum_cons, List.sum_nil, List.sum_append]
  norm_num [intensityAt, data22, sobelY, List.getD]

theorem edge22 : edgeAt data22 22 9 10 = 256 := by
  unfold edgeAt
  rw [grad22X, grad22Y,
    show (-256 : ℚ) * (-256) + 0 * 0 = 256 * 256 from by norm_num]
  unfold jsSqrt
  rw [Rat.sqrt_eq]
  norm_num

theorem build22 :
    buildMask data22 22 22 (bgAvg data22 22 22) (adaptiveThreshold data22 22 22) 229 = 1 := by
  rw [bgAvg22, adaptiveThreshold22]
  unfold buildMask colorDistMap edgeMap
  rw [show (229 % 22 : ℕ) = 9 from by norm_num, show (229 / 22 : ℕ) = 10 from by norm_num,
    if_pos (show interiorAt 22 22 9 10 from by decide),
    if_pos (show interiorAt 22 22 9 10 from by decide), colorDist22, edge22]
  refine if_pos ⟨by norm_num, ?_⟩
  norm_num

/-- C2 counterexample: on `data22`, the band pixel `(9, 10)` (pixel index
229, byte index 919) is sampled, its color equals the background mean so its
color distance `0` is within the threshold, yet the black pixel next to it
drives the Sobel edge term to the cap and the combined metric `80 > 32`
labels it foreground — its alpha survives the pipeline, refuting the claim
that every within-threshold band pixel ends as background. -/
theorem borderBand_counterexample :
    ((9 : ℤ), (10 : ℤ)) ∈ sampleCoords 22 22 ∧
    colorDistAt data22 22 (bgAvg data22 22 22) 9 10 ≤ adaptiveThreshold data22 22 22 ∧
    (processWatchImage data22 22 22).1 919 ≠ 0 := by
  refine ⟨by decide, ?_, ?_⟩
  · rw [bgAvg22, adaptiveThreshold22, colorDist22]
    norm_num
  · have hd : dilateMask data22 22 22 (bgAvg data22 22 22) (adaptiveThreshold data22 22 22)
        (buildMask data22 22 22 (bgAvg data22 22 22) (adaptiveThreshold data22 22 22)) 229 = 1 :=
      dilate_foldl_keeps_one _ _ _ _ _ _ _ _ build22
    have hm : improvedWatchMask data22 22 22 (bgAvg data22 22 22)
        (adaptiveThreshold data22 22 22) 229 = 1 := by
      unfold improvedWatchMask
      rw [floodFill_keeps_nonzero _ 22 22 229 (by rw [hd]; exact one_ne_zero)]
      exact hd
    show applyMask data22 22 22
      (improvedWatchMask data22 22 22 (bgAvg data22 22 22) (adaptiveThreshold data22 22 22))
      919 ≠ 0
    unfold applyMask
    rw [if_neg (by
      rintro ⟨-, -, -, hmask⟩
      rw [show ((919 : ℤ) / 4).toNat = 229 from by decide] at hmask
      rw [hm] at hmask
      exact Nat.one_ne_zero hmask)]
    norm_num [data22]
